import Mathlib

/-!
# Marquee renderer (`inicio/static/js/app.js`)

A shallow embedding of the logo-marquee script and proofs about it.

* A JavaScript string is the list of its UTF-16 code units.
* `String.prototype.toUpperCase` is a built-in of the host language, not code of the
  script; every definition takes it as the parameter `up`.  Properties that depend on what
  upper-casing does are stated for every `up` that satisfies an explicit assumption
  (`AgreesOnBasicLatin`, `NoLowerOutput`), both of which hold for the ECMAScript operation.
* The page is a map from element ids to the `innerHTML` of the element carrying that id.
-/

set_option maxRecDepth 100000

namespace Marquee

/-! ## Strings -/

/-- A JavaScript string value: its sequence of UTF-16 code units, each a number below
`2 ^ 16`. -/
abbrev JSString := List Nat

/-- UTF-16 encoding of one Unicode scalar value. -/
def encodeChar (c : Char) : JSString :=
  if c.toNat < 0x10000 then [c.toNat]
  else [0xD800 + (c.toNat - 0x10000) / 0x400, 0xDC00 + (c.toNat - 0x10000) % 0x400]

/-- The string value denoted by a source literal. -/
def utf16 (s : String) : JSString :=
  s.toList.flatMap encodeChar

/-- `s.substring(start, end)` for non-negative integer arguments: both indices are clamped
to the length, swapped when `start > end`, and the code units in between are returned. -/
def substring (s : JSString) (start stop : Nat) : JSString :=
  let finalStart := min start s.length
  let finalEnd := min stop s.length
  let lo := min finalStart finalEnd
  let hi := max finalStart finalEnd
  (s.drop lo).take (hi - lo)

/-- `parts.join(sep)`: the elements in order with `sep` between consecutive ones. -/
def join (sep : JSString) : List JSString → JSString
  | [] => []
  | [x] => x
  | x :: y :: rest => x ++ sep ++ join sep (y :: rest)

/-! ## The script -/

/-- The fixed list of company names (lines 2–5). -/
def companies : List JSString :=
  [utf16 "TransAndes", utf16 "Viajes Dorado", utf16 "Rutas del Sol", utf16 "TurisCaribe",
   utf16 "Andes VIP", utf16 "MetroTour", utf16 "Selva Express"]

/-- Literal text of the template before the first substitution. -/
def quasi0 : JSString := utf16 "\n  <div class=\"logo\">\n    <div class=\"symbol\">"

/-- Literal text of the template between the two substitutions. -/
def quasi1 : JSString := utf16 "</div>\n    <span>"

/-- Literal text of the template after the second substitution. -/
def quasi2 : JSString := utf16 "</span>\n  </div>"

/-- The arrow function `makeLogo` (lines 7–11): a template literal with the substitutions
`name.substring(0,2).toUpperCase()` and `name`. -/
def makeLogo (up : JSString → JSString) (name : JSString) : JSString :=
  quasi0 ++ up (substring name 0 2) ++ quasi1 ++ name ++ quasi2

/-- The value `once` (line 14) for a list of names: `names.map(makeLogo).join('')`. -/
def once (up : JSString → JSString) (names : List JSString) : JSString :=
  join (utf16 "") (names.map (makeLogo up))

/-- The value assigned to `track.innerHTML` (line 15): `once + once`. -/
def trackContent (up : JSString → JSString) (names : List JSString) : JSString :=
  once up names ++ once up names

/-! ## The page -/

/-- The document: for each id, the `innerHTML` of the element with that id, if there is one. -/
abbrev Document := String → Option JSString

/-- How the script ends: normally, or with the `TypeError` of assigning a property of `null`. -/
inductive Completion where
  | normal
  | typeError
  deriving DecidableEq, Repr

/-- `document.getElementById(id)`: a reference to the element, or `null` (`none`). -/
def getElementById (doc : Document) (id : String) : Option String :=
  match doc id with
  | some _ => some id
  | none => none

/-- The assignment `target.innerHTML = value`, where `target` may be `null`. -/
def setInnerHTML (doc : Document) (target : Option String) (value : JSString) :
    Completion × Document :=
  match target with
  | none => (Completion.typeError, doc)
  | some id => (Completion.normal, Function.update doc id (some value))

/-- Lines 13–15 run on a page, for a list of names: look the element up, build `once`,
assign `once + once` to its `innerHTML`. -/
def mount (up : JSString → JSString) (names : List JSString) (doc : Document) :
    Completion × Document :=
  let track := getElementById doc "marqueeTrack"
  let once := join (utf16 "") (names.map (makeLogo up))
  setInnerHTML doc track (once ++ once)

/-- The whole script: `mount` on the fixed list `companies`. -/
def script (up : JSString → JSString) (doc : Document) : Completion × Document :=
  mount up companies doc

/-- The page after `n` runs of the mount, one after the other. -/
def mountTimes (up : JSString → JSString) (names : List JSString) : Nat → Document → Document
  | 0, doc => doc
  | n + 1, doc => mountTimes up names n (mount up names doc).2

/-- A page without the element `marqueeTrack` (and without any other element with an id). -/
def emptyPage : Document :=
  fun _ => none

/-- A page whose only element with an id is `marqueeTrack`, holding `content`. -/
def pageWithTrack (content : JSString) : Document :=
  fun id => if id = "marqueeTrack" then some content else none

/-! ## Upper-casing -/

/-- Upper-casing of one Basic Latin code unit: `a`–`z` go to `A`–`Z`, the rest stay. -/
def upperUnit (c : Nat) : Nat :=
  if 97 ≤ c ∧ c ≤ 122 then c - 32 else c

/-- Upper-casing restricted to Basic Latin: what `toUpperCase` does on strings all of whose
code units are below 128. -/
def upperBasicLatin (s : JSString) : JSString :=
  s.map upperUnit

/-- The parameter `up` upper-cases Basic Latin strings the way `toUpperCase` does. -/
def AgreesOnBasicLatin (up : JSString → JSString) : Prop :=
  ∀ s : JSString, (∀ c ∈ s, c < 128) → up s = upperBasicLatin s

/-- The parameter `up` never produces a lower-case Basic Latin letter. -/
def NoLowerOutput (up : JSString → JSString) : Prop :=
  ∀ s : JSString, ∀ c ∈ up s, ¬ (97 ≤ c ∧ c ≤ 122)

/-! ## Counting fragments -/

/-- The opening block of a fragment. -/
def logoOpen : JSString := utf16 "<div class=\"logo\">"

/-- Number of positions of `s` at which `pat` occurs. -/
def countOcc (pat : JSString) : JSString → Nat
  | [] => if pat.isPrefixOf [] then 1 else 0
  | c :: s => (if pat.isPrefixOf (c :: s) then 1 else 0) + countOcc pat s

/-- The markup of one fragment with a given symbol and visible text, tag by tag, with the
line breaks and indentation that separate the tags. -/
def fragment (symbol text : JSString) : JSString :=
  utf16 "\n  " ++ utf16 "<div class=\"logo\">" ++
  utf16 "\n    " ++ utf16 "<div class=\"symbol\">" ++ symbol ++ utf16 "</div>" ++
  utf16 "\n    " ++ utf16 "<span>" ++ text ++ utf16 "</span>" ++
  utf16 "\n  " ++ utf16 "</div>"

/-- The fragment shape as the interface description prints it: the tags of `fragment` with
nothing between them. -/
def compactFragment (symbol text : JSString) : JSString :=
  utf16 "<div class=\"logo\">" ++ utf16 "<div class=\"symbol\">" ++ symbol ++ utf16 "</div>" ++
  utf16 "<span>" ++ text ++ utf16 "</span>" ++ utf16 "</div>"

/-! ## Basic facts -/

theorem quasi0_eq : quasi0 =
    [10, 32, 32, 60, 100, 105, 118, 32, 99, 108, 97, 115, 115, 61, 34, 108, 111, 103, 111, 34,
     62, 10, 32, 32, 32, 32, 60, 100, 105, 118, 32, 99, 108, 97, 115, 115, 61, 34, 115, 121,
     109, 98, 111, 108, 34, 62] := by
  decide

theorem quasi1_eq : quasi1 =
    [60, 47, 100, 105, 118, 62, 10, 32, 32, 32, 32, 60, 115, 112, 97, 110, 62] := by
  decide

theorem quasi2_eq : quasi2 =
    [60, 47, 115, 112, 97, 110, 62, 10, 32, 32, 60, 47, 100, 105, 118, 62] := by
  decide

theorem logoOpen_eq : logoOpen =
    [60, 100, 105, 118, 32, 99, 108, 97, 115, 115, 61, 34, 108, 111, 103, 111, 34, 62] := by
  decide

theorem utf16_empty : utf16 "" = [] := by
  decide

theorem join_empty_sep (parts : List JSString) : join [] parts = parts.flatten := by
  induction parts with
  | nil => rfl
  | cons x rest ih =>
    cases rest with
    | nil => simp [join]
    | cons y rest => simp [join, ih]

theorem once_eq_flatten (up : JSString → JSString) (names : List JSString) :
    once up names = (names.map (makeLogo up)).flatten := by
  simp [once, utf16_empty, join_empty_sep]

theorem substring_zero_two (s : JSString) : substring s 0 2 = s.take 2 := by
  simp [substring]

theorem substring_short (s : JSString) (h : s.length ≤ 2) : substring s 0 2 = s := by
  rw [substring_zero_two]
  exact List.take_of_length_le h

theorem makeLogo_eq_fragment (up : JSString → JSString) (name : JSString) :
    makeLogo up name = fragment (up (name.take 2)) name := by
  have h0 : quasi0 = utf16 "\n  " ++ utf16 "<div class=\"logo\">" ++
      utf16 "\n    " ++ utf16 "<div class=\"symbol\">" := by decide
  have h1 : quasi1 = utf16 "</div>" ++ utf16 "\n    " ++ utf16 "<span>" := by decide
  have h2 : quasi2 = utf16 "</span>" ++ utf16 "\n  " ++ utf16 "</div>" := by decide
  simp only [makeLogo, fragment, substring_zero_two, h0, h1, h2, List.append_assoc]

theorem agreesOnBasicLatin_upperBasicLatin : AgreesOnBasicLatin upperBasicLatin :=
  fun _ _ => rfl

theorem noLowerOutput_upperBasicLatin : NoLowerOutput upperBasicLatin := by
  intro s c hc
  simp only [upperBasicLatin, List.mem_map] at hc
  obtain ⟨d, _, rfl⟩ := hc
  have key : ∀ n : Nat, ¬ (97 ≤ upperUnit n ∧ upperUnit n ≤ 122) := by
    intro n
    unfold upperUnit
    split <;> omega
  exact key d

theorem mount_eq (up : JSString → JSString) (names : List JSString) (doc : Document) :
    mount up names doc =
      setInnerHTML doc (getElementById doc "marqueeTrack") (trackContent up names) := rfl

theorem mount_absent (up : JSString → JSString) (names : List JSString) (doc : Document)
    (h : doc "marqueeTrack" = none) : mount up names doc = (Completion.typeError, doc) := by
  simp [mount_eq, getElementById, h, setInnerHTML]

theorem mount_present (up : JSString → JSString) (names : List JSString) (doc : Document)
    (prior : JSString) (h : doc "marqueeTrack" = some prior) :
    mount up names doc =
      (Completion.normal, Function.update doc "marqueeTrack" (some (trackContent up names))) := by
  simp [mount_eq, getElementById, h, setInnerHTML]

theorem mount_mount (up : JSString → JSString) (names : List JSString) (doc : Document) :
    (mount up names (mount up names doc).2).2 = (mount up names doc).2 := by
  cases h : doc "marqueeTrack" with
  | none => simp [mount_absent up names doc h]
  | some prior =>
    rw [mount_present up names doc prior h]
    rw [mount_present up names _ (trackContent up names) (by simp)]
    simp

theorem mountTimes_succ (up : JSString → JSString) (names : List JSString) (n : Nat)
    (doc : Document) : mountTimes up names (n + 1) doc = (mount up names doc).2 := by
  induction n generalizing doc with
  | zero => rfl
  | succ k ih =>
    show mountTimes up names (k + 1) (mount up names doc).2 = _
    rw [ih, mount_mount]

/-! ## Occurrences of the opening block -/

theorem isPrefixOf_append_of_not_mem (pat x y : JSString) (c : Nat) (h : c ∉ pat) :
    pat.isPrefixOf (x ++ c :: y) = pat.isPrefixOf x := by
  induction pat generalizing x with
  | nil => simp [List.isPrefixOf]
  | cons p ps ih =>
    have hp : p ≠ c := fun e => h (by simp [e])
    have hps : c ∉ ps := fun e => h (by simp [e])
    cases x with
    | nil => simp [List.isPrefixOf, hp]
    | cons d ds => simp [List.isPrefixOf, ih ds hps]

theorem countOcc_nil (p : Nat) (pat : JSString) : countOcc (p :: pat) [] = 0 := by
  simp [countOcc, List.isPrefixOf]

theorem countOcc_cons (pat s : JSString) (c : Nat) :
    countOcc pat (c :: s) = (if pat.isPrefixOf (c :: s) then 1 else 0) + countOcc pat s := rfl

theorem countOcc_append (pat x y : JSString) (c : Nat) (h : c ∉ pat) :
    countOcc (c :: pat) (x ++ c :: y) = countOcc (c :: pat) x + countOcc (c :: pat) (c :: y) := by
  induction x with
  | nil => simp [countOcc_nil]
  | cons d ds ih =>
    have e : (c :: pat).isPrefixOf (d :: (ds ++ c :: y)) = (c :: pat).isPrefixOf (d :: ds) := by
      simp [List.isPrefixOf, isPrefixOf_append_of_not_mem pat ds y c h]
    rw [List.cons_append, countOcc_cons, countOcc_cons _ ds d, e, ih]
    omega

theorem countOcc_eq_zero_of_not_mem (pat s : JSString) (c : Nat) (hc : c ∈ pat) (hs : c ∉ s) :
    countOcc pat s = 0 := by
  have hne : ∀ t : JSString, c ∉ t → pat.isPrefixOf t = false := by
    intro t ht
    cases hp : pat.isPrefixOf t with
    | false => rfl
    | true =>
      exfalso
      have hpre : pat <+: t := List.isPrefixOf_iff_prefix.mp hp
      exact ht (hpre.subset hc)
  induction s with
  | nil => simp [countOcc, hne [] hs]
  | cons d ds ih =>
    have hds : c ∉ ds := fun e => hs (by simp [e])
    simp [countOcc, hne (d :: ds) hs, ih hds]

theorem countOcc_quasi0 (rest : JSString) :
    countOcc logoOpen (quasi0 ++ rest) = 1 + countOcc logoOpen rest := by
  simp [quasi0_eq, logoOpen_eq, countOcc, List.isPrefixOf]

theorem countOcc_quasi1 (rest : JSString) :
    countOcc logoOpen (quasi1 ++ rest) = countOcc logoOpen rest := by
  simp [quasi1_eq, logoOpen_eq, countOcc, List.isPrefixOf]

theorem countOcc_quasi2 (rest : JSString) :
    countOcc logoOpen (quasi2 ++ rest) = countOcc logoOpen rest := by
  simp [quasi2_eq, logoOpen_eq, countOcc, List.isPrefixOf]

theorem countOcc_makeLogo (up : JSString → JSString) (name rest : JSString) :
    countOcc logoOpen (makeLogo up name ++ rest) =
      1 + countOcc logoOpen (up (substring name 0 2)) + countOcc logoOpen name +
        countOcc logoOpen rest := by
  have hpat : (60 : Nat) ∉
      [100, 105, 118, 32, 99, 108, 97, 115, 115, 61, 34, 108, 111, 103, 111, 34, 62] := by
    decide
  have split1 : ∀ x y : JSString, countOcc logoOpen (x ++ (quasi1 ++ y)) =
      countOcc logoOpen x + countOcc logoOpen y := by
    intro x y
    rw [← countOcc_quasi1 y]
    simp only [quasi1_eq, logoOpen_eq, List.cons_append]
    exact countOcc_append _ x _ 60 hpat
  have split2 : ∀ x y : JSString, countOcc logoOpen (x ++ (quasi2 ++ y)) =
      countOcc logoOpen x + countOcc logoOpen y := by
    intro x y
    rw [← countOcc_quasi2 y]
    simp only [quasi2_eq, logoOpen_eq, List.cons_append]
    exact countOcc_append _ x _ 60 hpat
  simp only [makeLogo, List.append_assoc]
  rw [countOcc_quasi0, split1, split2]
  omega

theorem countOcc_flatten_makeLogo (up : JSString → JSString) (names : List JSString)
    (rest : JSString) :
    countOcc logoOpen ((names.map (makeLogo up)).flatten ++ rest) =
      names.length + (names.map fun n => countOcc logoOpen (up (substring n 0 2))).sum +
        (names.map (countOcc logoOpen)).sum + countOcc logoOpen rest := by
  induction names with
  | nil => simp
  | cons n ns ih =>
    simp only [List.map_cons, List.flatten_cons, List.append_assoc, List.length_cons,
      List.sum_cons]
    rw [countOcc_makeLogo, ih]
    omega

theorem countOcc_logoOpen_nil : countOcc logoOpen [] = 0 := by
  decide

theorem countOcc_up (up : JSString → JSString) (hup : NoLowerOutput up) (s : JSString) :
    countOcc logoOpen (up s) = 0 := by
  apply countOcc_eq_zero_of_not_mem logoOpen (up s) 100
  · decide
  · intro h
    exact hup s 100 h (by decide)

/-! ## Telling fragments apart -/

theorem makeLogo_tail_indexOf (up : JSString → JSString) (hup : NoLowerOutput up)
    (s rest : JSString) :
    List.indexOf 100 (up s ++ (quasi1 ++ rest)) = (up s).length + 2 := by
  have h : (100 : Nat) ∉ up s := fun h => hup s 100 h (by decide)
  rw [List.indexOf_append_of_not_mem h, quasi1_eq]
  simp [List.indexOf_cons]

theorem makeLogo_injective (up : JSString → JSString) (hup : NoLowerOutput up)
    (a b : JSString) (h : makeLogo up a = makeLogo up b) : a = b := by
  simp only [makeLogo, List.append_assoc, List.append_cancel_left_eq] at h
  have hlen : (up (substring a 0 2)).length = (up (substring b 0 2)).length := by
    have h1 := makeLogo_tail_indexOf up hup (substring a 0 2) (a ++ quasi2)
    have h2 := makeLogo_tail_indexOf up hup (substring b 0 2) (b ++ quasi2)
    rw [h] at h1
    omega
  have h3 := (List.append_inj h hlen).2
  simp only [List.append_cancel_left_eq, List.append_cancel_right_eq] at h3
  exact h3

/-! ## The track -/

/-- C1: for every list of names the track is the separator-less join of the mapped fragments
concatenated with itself, so its length is even and its first half, by code-unit count, is
identical to its second half. -/
theorem trackContent_self_concatenation (up : JSString → JSString) (names : List JSString) :
    trackContent up names =
        (names.map (makeLogo up)).flatten ++ (names.map (makeLogo up)).flatten ∧
      (trackContent up names).length % 2 = 0 ∧
      (trackContent up names).take ((trackContent up names).length / 2) =
        (trackContent up names).drop ((trackContent up names).length / 2) := by
  have h : trackContent up names =
      (names.map (makeLogo up)).flatten ++ (names.map (makeLogo up)).flatten := by
    simp [trackContent, once_eq_flatten]
  refine ⟨h, ?_, ?_⟩
  · rw [h, List.length_append]
    omega
  · rw [h]
    have hl : ((names.map (makeLogo up)).flatten ++ (names.map (makeLogo up)).flatten).length / 2
        = (names.map (makeLogo up)).flatten.length := by
      rw [List.length_append]
      omega
    rw [hl, List.take_left, List.drop_left]

/-- C2, refuted as stated: for the name TransAndes the output of `makeLogo` is not the
compact shape, because the template literal emits a line break and indentation before
each block. -/
theorem makeLogo_not_compact :
    makeLogo upperBasicLatin (utf16 "TransAndes") ≠
      compactFragment (upperBasicLatin ((utf16 "TransAndes").take 2)) (utf16 "TransAndes") := by
  decide

/-- C2, amended: for every name, `makeLogo` returns, code unit for code unit, the tags of the
compact shape in the same order with the upper-cased first two code units of the name as
symbol and the name as text, where a line break and two spaces precede the outer opening
and closing tags, a line break and four spaces precede the symbol block and the span, and
nothing follows the last tag; that is 16 code units more than the compact shape; and the
track is these fragments, for the names and then the names again, with nothing added
between them. -/
theorem makeLogo_exact_shape (up : JSString → JSString) (name : JSString) (names : List JSString) :
    makeLogo up name =
        utf16 "\n  " ++ utf16 "<div class=\"logo\">" ++
        utf16 "\n    " ++ utf16 "<div class=\"symbol\">" ++ up (name.take 2) ++ utf16 "</div>" ++
        utf16 "\n    " ++ utf16 "<span>" ++ name ++ utf16 "</span>" ++
        utf16 "\n  " ++ utf16 "</div>" ∧
      (makeLogo up name).length = (compactFragment (up (name.take 2)) name).length + 16 ∧
      trackContent up names = (names.map (makeLogo up) ++ names.map (makeLogo up)).flatten := by
  refine ⟨makeLogo_eq_fragment up name, ?_, ?_⟩
  · simp only [makeLogo, compactFragment, substring_zero_two, List.length_append]
    have e0 : quasi0.length = 46 := by decide
    have e1 : quasi1.length = 17 := by decide
    have e2 : quasi2.length = 16 := by decide
    have c0 : (utf16 "<div class=\"logo\">").length = 18 := by decide
    have c1 : (utf16 "<div class=\"symbol\">").length = 20 := by decide
    have c2 : (utf16 "</div>").length = 6 := by decide
    have c3 : (utf16 "<span>").length = 6 := by decide
    have c4 : (utf16 "</span>").length = 7 := by decide
    rw [e0, e1, e2, c0, c1, c2, c3, c4]
    omega
  · simp [trackContent, once_eq_flatten]

/-! ## Symbols -/

theorem up_companies (up : JSString → JSString) (hup : AgreesOnBasicLatin up) :
    ∀ N ∈ companies, up (N.take 2) = upperBasicLatin (N.take 2) := by
  intro N hN
  apply hup
  have h : ∀ M ∈ companies, ∀ c ∈ M.take 2, c < 128 := by decide
  exact h N hN

/-- C3: for each of the 7 fixed names, `makeLogo` yields the fragment whose symbol block
holds exactly the upper-cased first two code units of the name (TR, VI, RU, TU, AN, ME, SE
in list order) and whose span holds the name itself. -/
theorem makeLogo_companies (up : JSString → JSString) (hup : AgreesOnBasicLatin up) :
    companies.map (makeLogo up) =
        [fragment (utf16 "TR") (utf16 "TransAndes"),
         fragment (utf16 "VI") (utf16 "Viajes Dorado"),
         fragment (utf16 "RU") (utf16 "Rutas del Sol"),
         fragment (utf16 "TU") (utf16 "TurisCaribe"),
         fragment (utf16 "AN") (utf16 "Andes VIP"),
         fragment (utf16 "ME") (utf16 "MetroTour"),
         fragment (utf16 "SE") (utf16 "Selva Express")] ∧
      ∀ N ∈ companies, makeLogo up N = fragment (upperBasicLatin (N.take 2)) N := by
  have h : ∀ N ∈ companies, makeLogo up N = fragment (upperBasicLatin (N.take 2)) N := by
    intro N hN
    rw [makeLogo_eq_fragment, up_companies up hup N hN]
  refine ⟨?_, h⟩
  rw [List.map_congr_left h]
  decide

/-- C3, instance: with Basic Latin upper-casing the 7 fixed names render to the fragments
with symbols TR, VI, RU, TU, AN, ME, SE. -/
theorem makeLogo_companies_witness :
    AgreesOnBasicLatin upperBasicLatin ∧
      companies.map (makeLogo upperBasicLatin) =
        [fragment (utf16 "TR") (utf16 "TransAndes"),
         fragment (utf16 "VI") (utf16 "Viajes Dorado"),
         fragment (utf16 "RU") (utf16 "Rutas del Sol"),
         fragment (utf16 "TU") (utf16 "TurisCaribe"),
         fragment (utf16 "AN") (utf16 "Andes VIP"),
         fragment (utf16 "ME") (utf16 "MetroTour"),
         fragment (utf16 "SE") (utf16 "Selva Express")] :=
  ⟨agreesOnBasicLatin_upperBasicLatin,
    (makeLogo_companies upperBasicLatin agreesOnBasicLatin_upperBasicLatin).1⟩

/-- C6: for every name of fewer than 2 code units `makeLogo` returns a fragment (it is a total
function, nothing can fail) whose symbol is the upper-cased whole name, with nothing added;
for the name X the symbol is X and the text is X; for the empty name the symbol is empty. -/
theorem makeLogo_short_name (up : JSString → JSString) (hup : AgreesOnBasicLatin up) :
    (∀ name : JSString, name.length < 2 → makeLogo up name = fragment (up name) name) ∧
      makeLogo up (utf16 "X") = fragment (utf16 "X") (utf16 "X") ∧
      makeLogo up (utf16 "") = fragment [] [] := by
  have h : ∀ name : JSString, name.length < 2 → makeLogo up name = fragment (up name) name := by
    intro name hlen
    rw [makeLogo_eq_fragment, List.take_of_length_le (by omega)]
  refine ⟨h, ?_, ?_⟩
  · rw [h _ (by decide), hup _ (by decide)]
    decide
  · rw [h _ (by decide), hup _ (by decide)]
    decide

/-- C6, instance: with Basic Latin upper-casing, the one-unit name X has fewer than 2 code
units and renders to the fragment with symbol X and text X. -/
theorem makeLogo_short_name_witness :
    AgreesOnBasicLatin upperBasicLatin ∧ (utf16 "X").length < 2 ∧
      makeLogo upperBasicLatin (utf16 "X") =
        fragment (upperBasicLatin (utf16 "X")) (utf16 "X") :=
  ⟨agreesOnBasicLatin_upperBasicLatin, by decide,
    (makeLogo_short_name upperBasicLatin agreesOnBasicLatin_upperBasicLatin).1
      (utf16 "X") (by decide)⟩

/-! ## Order -/

/-- C5: for every list of names the track is the separator-less join of `makeLogo` mapped
over the names followed by the names again, so the fragments at positions i and n + i are
both the fragment of the i-th name; for TransAndes, Viajes Dorado the track is the four
fragments TransAndes (TR), Viajes Dorado (VI), TransAndes (TR), Viajes Dorado (VI). -/
theorem trackContent_order (up : JSString → JSString) (hup : AgreesOnBasicLatin up) :
    (∀ names : List JSString,
        trackContent up names = ((names ++ names).map (makeLogo up)).flatten ∧
        ∀ (i : Nat) (hi : i < names.length),
          ((names ++ names).map (makeLogo up))[i]? = some (makeLogo up (names.get ⟨i, hi⟩)) ∧
          ((names ++ names).map (makeLogo up))[names.length + i]? =
            some (makeLogo up (names.get ⟨i, hi⟩))) ∧
      trackContent up [utf16 "TransAndes", utf16 "Viajes Dorado"] =
        [fragment (utf16 "TR") (utf16 "TransAndes"),
         fragment (utf16 "VI") (utf16 "Viajes Dorado"),
         fragment (utf16 "TR") (utf16 "TransAndes"),
         fragment (utf16 "VI") (utf16 "Viajes Dorado")].flatten := by
  have hflat : ∀ l : List JSString,
      trackContent up l = ((l ++ l).map (makeLogo up)).flatten := by
    intro l
    simp [trackContent, once_eq_flatten]
  refine ⟨fun names => ⟨hflat names, fun i hi => ⟨?_, ?_⟩⟩, ?_⟩
  · rw [List.getElem?_map, List.getElem?_append_left hi, List.getElem?_eq_getElem hi]
    rfl
  · rw [List.getElem?_map, List.getElem?_append_right (by omega)]
    simp [List.getElem?_eq_getElem hi]
  · rw [hflat]
    have e1 : makeLogo up (utf16 "TransAndes") = fragment (utf16 "TR") (utf16 "TransAndes") := by
      rw [makeLogo_eq_fragment, hup _ (by decide)]
      decide
    have e2 : makeLogo up (utf16 "Viajes Dorado") =
        fragment (utf16 "VI") (utf16 "Viajes Dorado") := by
      rw [makeLogo_eq_fragment, hup _ (by decide)]
      decide
    simp only [List.cons_append, List.nil_append, List.map_cons, List.map_nil, e1, e2]

/-- C5, instance: with Basic Latin upper-casing and the two names TransAndes, Viajes Dorado,
position 1 and position 2 + 1 both hold the fragment of Viajes Dorado. -/
theorem trackContent_order_witness :
    AgreesOnBasicLatin upperBasicLatin ∧
      ((([utf16 "TransAndes", utf16 "Viajes Dorado"] ++
          [utf16 "TransAndes", utf16 "Viajes Dorado"]).map (makeLogo upperBasicLatin))[1]? =
        some (makeLogo upperBasicLatin (utf16 "Viajes Dorado"))) ∧
      ((([utf16 "TransAndes", utf16 "Viajes Dorado"] ++
          [utf16 "TransAndes", utf16 "Viajes Dorado"]).map (makeLogo upperBasicLatin))[2 + 1]? =
        some (makeLogo upperBasicLatin (utf16 "Viajes Dorado"))) :=
  ⟨agreesOnBasicLatin_upperBasicLatin,
    (((trackContent_order upperBasicLatin agreesOnBasicLatin_upperBasicLatin).1
      [utf16 "TransAndes", utf16 "Viajes Dorado"]).2 1 (by decide)).1,
    (((trackContent_order upperBasicLatin agreesOnBasicLatin_upperBasicLatin).1
      [utf16 "TransAndes", utf16 "Viajes Dorado"]).2 1 (by decide)).2⟩

/-! ## Counting the fragments of the track -/

/-- C4, refuted as stated: for the one-element list whose name is the text of the opening
block itself, the opening block occurs 4 times in the track, not 2 times. -/
theorem countOcc_not_twice_length :
    countOcc logoOpen (trackContent upperBasicLatin [utf16 "<div class=\"logo\">"]) = 4 ∧
      countOcc logoOpen (trackContent upperBasicLatin [utf16 "<div class=\"logo\">"]) ≠
        2 * [utf16 "<div class=\"logo\">"].length := by
  decide

/-- C4, amended: the number of occurrences of the opening block in the track is twice the
number of names plus twice the number of occurrences inside the names themselves; so it is
exactly twice the length of the list whenever no name contains the opening block, and for
the fixed list of 7 companies it is exactly 14. -/
theorem countOcc_trackContent (up : JSString → JSString) (hup : NoLowerOutput up) :
    (∀ names : List JSString, countOcc logoOpen (trackContent up names) =
        2 * (names.length + (names.map (countOcc logoOpen)).sum)) ∧
      (∀ names : List JSString, (∀ n ∈ names, countOcc logoOpen n = 0) →
        countOcc logoOpen (trackContent up names) = 2 * names.length) ∧
      countOcc logoOpen (trackContent up companies) = 14 := by
  have hsym : ∀ names : List JSString,
      (names.map fun n => countOcc logoOpen (up (substring n 0 2))).sum = 0 := by
    intro names
    induction names with
    | nil => rfl
    | cons n ns ih => simp [countOcc_up up hup, ih]
  have hcount : ∀ names : List JSString, countOcc logoOpen (trackContent up names) =
      2 * (names.length + (names.map (countOcc logoOpen)).sum) := by
    intro names
    have h1 := countOcc_flatten_makeLogo up names []
    have h2 := countOcc_flatten_makeLogo up names ((names.map (makeLogo up)).flatten)
    rw [List.append_nil] at h1
    rw [trackContent, once_eq_flatten, h2, h1, hsym names, countOcc_logoOpen_nil]
    omega
  refine ⟨hcount, ?_, ?_⟩
  · intro names hz
    have hsum : (names.map (countOcc logoOpen)).sum = 0 := by
      induction names with
      | nil => rfl
      | cons n ns ih =>
        simp only [List.map_cons, List.sum_cons]
        rw [hz n (by simp), ih (fun m hm => hz m (by simp [hm]))]
    rw [hcount, hsum]
    omega
  · rw [hcount]
    decide

/-- C4, instance: Basic Latin upper-casing produces no lower-case letter, no name of the fixed
list contains the opening block, and the track of the fixed list has 2 * 7 = 14 opening
blocks. -/
theorem countOcc_trackContent_witness :
    NoLowerOutput upperBasicLatin ∧ (∀ n ∈ companies, countOcc logoOpen n = 0) ∧
      countOcc logoOpen (trackContent upperBasicLatin companies) = 2 * companies.length ∧
      countOcc logoOpen (trackContent upperBasicLatin companies) = 14 :=
  ⟨noLowerOutput_upperBasicLatin, by decide,
    (countOcc_trackContent upperBasicLatin noLowerOutput_upperBasicLatin).2.1 companies
      (by decide),
    (countOcc_trackContent upperBasicLatin noLowerOutput_upperBasicLatin).2.2⟩

/-! ## Mounting -/

/-- C7: when the page has no element `marqueeTrack` the mount ends with a `TypeError` and the
page is exactly the page before the mount; when the element is present the mount ends
normally, whatever the names and whatever the element held. -/
theorem mount_absent_or_present (up : JSString → JSString) (names : List JSString)
    (doc : Document) :
    (doc "marqueeTrack" = none → mount up names doc = (Completion.typeError, doc)) ∧
      (∀ prior : JSString, doc "marqueeTrack" = some prior →
        (mount up names doc).1 = Completion.normal) := by
  refine ⟨mount_absent up names doc, ?_⟩
  intro prior h
  rw [mount_present up names doc prior h]

/-- C7, instance: on the page without the element the script fails and leaves the page as
it was; on a page with an empty `marqueeTrack` element it ends normally. -/
theorem mount_absent_or_present_witness :
    emptyPage "marqueeTrack" = none ∧
      script upperBasicLatin emptyPage = (Completion.typeError, emptyPage) ∧
      pageWithTrack [] "marqueeTrack" = some [] ∧
      (script upperBasicLatin (pageWithTrack [])).1 = Completion.normal :=
  ⟨rfl, (mount_absent_or_present upperBasicLatin companies emptyPage).1 rfl, by decide,
    (mount_absent_or_present upperBasicLatin companies (pageWithTrack [])).2 [] (by decide)⟩

/-- C8: when the element is present, one mount ends normally on the page in which the content
of `marqueeTrack` is the built track, whatever the element held before, and nothing else has
changed; and the page after N mounts, N at least 1, is the page after exactly one mount. -/
theorem mount_replaces (up : JSString → JSString) (names : List JSString) (doc : Document) :
    (∀ prior : JSString, doc "marqueeTrack" = some prior →
        mount up names doc = (Completion.normal,
          Function.update doc "marqueeTrack" (some (trackContent up names))) ∧
        (mount up names doc).2 "marqueeTrack" = some (trackContent up names)) ∧
      (∀ N : Nat, 1 ≤ N → mountTimes up names N doc = mountTimes up names 1 doc) := by
  refine ⟨?_, ?_⟩
  · intro prior h
    refine ⟨mount_present up names doc prior h, ?_⟩
    rw [mount_present up names doc prior h]
    simp
  · intro N hN
    obtain ⟨k, rfl⟩ : ∃ k, N = k + 1 := ⟨N - 1, by omega⟩
    rw [mountTimes_succ, mountTimes_succ]

/-- C8, instance: a `marqueeTrack` element that already holds the track of the fixed list
holds exactly that track, once, after one more mount, and three mounts in a row leave the
same page as one mount. -/
theorem mount_replaces_witness :
    pageWithTrack (trackContent upperBasicLatin companies) "marqueeTrack" =
        some (trackContent upperBasicLatin companies) ∧
      (mount upperBasicLatin companies
          (pageWithTrack (trackContent upperBasicLatin companies))).2 "marqueeTrack" =
        some (trackContent upperBasicLatin companies) ∧
      1 ≤ 3 ∧
      mountTimes upperBasicLatin companies 3 (pageWithTrack []) =
        mountTimes upperBasicLatin companies 1 (pageWithTrack []) :=
  ⟨by simp [pageWithTrack],
    ((mount_replaces upperBasicLatin companies
      (pageWithTrack (trackContent upperBasicLatin companies))).1
        (trackContent upperBasicLatin companies) (by simp [pageWithTrack])).2,
    by decide,
    (mount_replaces upperBasicLatin companies (pageWithTrack [])).2 3 (by decide)⟩

/-- C9: for the empty list of names the built track is the empty string, it contains no
fragment, and mounting it on a page that has the element ends normally with the element
emptied. -/
theorem trackContent_nil (up : JSString → JSString) (doc : Document) :
    trackContent up [] = [] ∧ countOcc logoOpen (trackContent up []) = 0 ∧
      (∀ prior : JSString, doc "marqueeTrack" = some prior →
        mount up [] doc = (Completion.normal, Function.update doc "marqueeTrack" (some []))) := by
  have h : trackContent up [] = [] := rfl
  refine ⟨h, ?_, ?_⟩
  · rw [h]
    exact countOcc_logoOpen_nil
  · intro prior hp
    rw [mount_present up [] doc prior hp, h]

/-- C9, instance: mounting the empty list on a page whose element holds the text X ends
normally and leaves the element empty. -/
theorem trackContent_nil_witness :
    pageWithTrack (utf16 "X") "marqueeTrack" = some (utf16 "X") ∧
      mount upperBasicLatin [] (pageWithTrack (utf16 "X")) =
        (Completion.normal,
          Function.update (pageWithTrack (utf16 "X")) "marqueeTrack" (some [])) :=
  ⟨by decide,
    (trackContent_nil upperBasicLatin (pageWithTrack (utf16 "X"))).2.2 (utf16 "X") (by decide)⟩

/-! ## Injectivity -/

/-- C10: `makeLogo` is injective: two names with the same fragment are the same name; in
particular the 7 fragments of the fixed list are pairwise distinct. -/
theorem makeLogo_inj (up : JSString → JSString) (hup : NoLowerOutput up) :
    (∀ a b : JSString, makeLogo up a = makeLogo up b → a = b) ∧
      (companies.map (makeLogo up)).Nodup := by
  have hinj : Function.Injective (makeLogo up) := fun a b h => makeLogo_injective up hup a b h
  refine ⟨fun a b h => hinj h, ?_⟩
  apply List.Nodup.map hinj
  decide

/-- C10, instance: with Basic Latin upper-casing, which produces no lower-case letter, the
fragment of Andes VIP is not the fragment of TransAndes, and the 7 fragments of the fixed
list are pairwise distinct. -/
theorem makeLogo_inj_witness :
    NoLowerOutput upperBasicLatin ∧
      makeLogo upperBasicLatin (utf16 "Andes VIP") =
        makeLogo upperBasicLatin (utf16 "Andes VIP") ∧
      utf16 "Andes VIP" = utf16 "Andes VIP" ∧
      makeLogo upperBasicLatin (utf16 "Andes VIP") ≠
        makeLogo upperBasicLatin (utf16 "TransAndes") ∧
      (companies.map (makeLogo upperBasicLatin)).Nodup :=
  ⟨noLowerOutput_upperBasicLatin, rfl,
    (makeLogo_inj upperBasicLatin noLowerOutput_upperBasicLatin).1 _ _ rfl,
    fun h => absurd ((makeLogo_inj upperBasicLatin noLowerOutput_upperBasicLatin).1 _ _ h)
      (by decide),
    (makeLogo_inj upperBasicLatin noLowerOutput_upperBasicLatin).2⟩

end Marquee
